import Mathlib

/-!
Verification of the casbin-authorization-server core engines.

This file shallowly embeds the evaluation engines of the repository
(Go sources under `internal/core/services/` plus the monolithic
`main.go` dispatcher) and proves or refutes the frozen claims about
them.

Modelling conventions:
* Go strings are Lean `String`s; byte-level operations are carried out
  on `String.data` (`List Char`), which agrees with Go for the ASCII
  identifiers the code manipulates.
* Go maps are association lists; iteration order of a Go map is
  unspecified, so theorems quantify over every association-list order.
* Go's `strconv.ParseFloat`-based numeric comparison and
  `regexp.MatchString` are abstracted as opaque function parameters
  (`cmpNum`, `rx`): IEEE-754 parsing and RE2 matching are not shallowly
  embeddable, and no claim depends on their semantics.  Theorems are
  universally quantified over them.
* Recursive Go code that has no termination guarantee
  (`ReBACEnforcerImpl.Enforce` via `checkHierarchicalAccess`, and the
  BFS in `FindRelationshipPath`) is embedded with an explicit fuel
  parameter returning `Option`; `none` models a computation that has
  not finished within the given fuel.
-/

/-! ## Basic string helpers (embedding Go's `strings` package operations) -/

/-- `strings.HasPrefix`-style check on char lists: `listHasPre p l` is
true iff `p` is an initial segment of `l`. -/
def listHasPre : List Char → List Char → Bool
  | [], _ => true
  | _ :: _, [] => false
  | a :: as, b :: bs => a == b && listHasPre as bs

/-- `strings.HasPrefix s p`: `s` starts with `p`. -/
def strStarts (s p : String) : Bool :=
  listHasPre p.data s.data

/-- `strings.HasSuffix s p`: `s` ends with `p`. -/
def strEnds (s p : String) : Bool :=
  listHasPre p.data.reverse s.data.reverse

/-- `strings.Contains hay needle` via char lists. -/
def listContainsSub (needle : List Char) : List Char → Bool
  | [] => listHasPre needle []
  | a :: rest => listHasPre needle (a :: rest) || listContainsSub needle rest

/-- `strings.Contains hay needle`. -/
def strContains (hay needle : String) : Bool :=
  listContainsSub needle.data hay.data

/-- Embedding of Go's `strings.Split` with a one-character separator,
written over char lists for ease of reasoning. -/
def splitChars (c : Char) : List Char → List (List Char)
  | [] => [[]]
  | x :: xs =>
    let r := splitChars c xs
    if x == c then [] :: r
    else
      match r with
      | [] => [[x]]
      | h :: t => (x :: h) :: t

/-- `strings.Split key ":"` (the only separator the code uses). -/
def goSplitColon (s : String) : List String :=
  (splitChars ':' s.data).map (fun cs => String.mk cs)

/-- ASCII approximation of Go's `strings.TrimSpace` (used only by the
ABAC `in` operator; no claim depends on the exact whitespace set). -/
def isSpaceChar (c : Char) : Bool :=
  c == ' ' || c == '\t' || c == '\n' || c == '\r'

/-- Trim whitespace from both ends (`strings.TrimSpace`). -/
def trimSpace (s : String) : String :=
  String.mk (((s.data.dropWhile isSpaceChar).reverse.dropWhile isSpaceChar).reverse)

/-- Embedding of Go's `strings.Compare` (lexicographic; byte order and
code-point order coincide on valid UTF-8). -/
def cmpChars : List Char → List Char → Int
  | [], [] => 0
  | [], _ :: _ => -1
  | _ :: _, [] => 1
  | a :: as, b :: bs => if a < b then -1 else if b < a then 1 else cmpChars as bs

/-! ## Data model (`internal/core/domain`) -/

/-- `domain.PolicyCondition` (acl_enforcer_impl.go, domain part). -/
structure PolicyCondition where
  id : Nat
  policyId : String
  type : String
  field : String
  operator : String
  value : String
  logicOp : String
deriving DecidableEq, Repr

/-- `domain.ABACPolicy`.  Timestamps are modelled as `Nat` ticks. -/
structure ABACPolicy where
  id : String
  name : String
  description : String
  effect : String
  priority : Int
  conditions : List PolicyCondition
  createdAt : Nat
  updatedAt : Nat
deriving DecidableEq, Repr

/-- `domain.Relationship`. -/
structure Relationship where
  subject : String
  relationship : String
  object : String
deriving DecidableEq, Repr

/-! ## RBAC engine (`rbac_enforcer_impl.go`) -/

/-- The triple test inside `RBACEnforcerImpl.Enforce`:
`len(p) == 3 && p[0] == s && p[1] == o && p[2] == a`. -/
def matchesTriple (p : List String) (s o a : String) : Bool :=
  match p with
  | [x, y, z] => x == s && y == o && z == a
  | _ => false

/-- `RBACEnforcerImpl.Enforce` on the error-free path: `policies` is
what `repo.GetPolicy()` returned, `roles` what
`repo.GetRolesForUser(subject)` returned. -/
def rbacEnforce (policies : List (List String)) (roles : List String)
    (subject object action : String) : Bool :=
  policies.any (fun p => matchesTriple p subject object action) ||
    roles.any (fun role => policies.any (fun p => matchesTriple p role object action))

/-! ## ABAC engine (`authorization_service_impl.go`, ABACHandlerImpl) -/

/-- `services.PolicyEvaluationContext`. -/
structure PolicyEvaluationContext where
  userAttributes : List (String × String)
  objectAttributes : List (String × String)
  environmentAttributes : List (String × String)
  actionAttributes : List (String × String)
  subject : String
  object : String
  action : String
deriving DecidableEq, Repr

/-- Go map indexing `m[k]` on a `map[string]string`: missing keys give
the zero value `""`. -/
def lookupAttr (m : List (String × String)) (k : String) : String :=
  match m with
  | [] => ""
  | (k0, v0) :: rest => if k0 == k then v0 else lookupAttr rest k

/-- `ABACHandlerImpl.evaluateIn`: split the expected list on `,`, trim
each element, test membership. -/
def evaluateIn (actual expectedList : String) : Bool :=
  ((splitChars ',' expectedList.data).map (fun cs => String.mk cs)).any
    (fun value => trimSpace value == actual)

/-- `ABACHandlerImpl.evaluateOperator`.  `cmpNum` abstracts
`compareNumeric` (ParseFloat-or-lexicographic comparison) and `rx`
abstracts `regexp.MatchString` with its error ignored. -/
def evaluateOperator (cmpNum : String → String → Int)
    (rx : String → String → Bool)
    (actual operator expected : String) : Bool :=
  match operator with
  | "eq" => actual == expected
  | "ne" => actual != expected
  | "gt" => cmpNum actual expected > 0
  | "gte" => cmpNum actual expected ≥ 0
  | "lt" => cmpNum actual expected < 0
  | "lte" => cmpNum actual expected ≤ 0
  | "in" => evaluateIn actual expected
  | "contains" => strContains actual expected
  | "startswith" => strStarts actual expected
  | "endswith" => strEnds actual expected
  | "regex" => rx expected actual
  | _ => false

/-- `ABACHandlerImpl.evaluateCondition`: resolve the actual operand by
condition type, then apply the operator; an unknown type returns false
without consulting the operator. -/
def evaluateCondition (cmpNum : String → String → Int)
    (rx : String → String → Bool)
    (condition : PolicyCondition) (ctx : PolicyEvaluationContext) : Bool :=
  let actual? : Option String :=
    match condition.type with
    | "user" => some (lookupAttr ctx.userAttributes condition.field)
    | "object" => some (lookupAttr ctx.objectAttributes condition.field)
    | "environment" => some (lookupAttr ctx.environmentAttributes condition.field)
    | "action" =>
        some (if condition.field == "action" then ctx.action
              else lookupAttr ctx.actionAttributes condition.field)
    | "subject" => some (if condition.field == "subject" then ctx.subject else "")
    | "resource" => some (if condition.field == "object" then ctx.object else "")
    | _ => none
  match actual? with
  | none => false
  | some actual => evaluateOperator cmpNum rx actual condition.operator condition.value

/-- The loop body of `ABACHandlerImpl.evaluatePolicy` for indices `i ≥ 1`:
state is `(result, currentLogicOp)`. -/
def evalCondLoop (cmpNum : String → String → Int)
    (rx : String → String → Bool) (ctx : PolicyEvaluationContext) :
    List PolicyCondition → Bool → String → Bool
  | [], result, _ => result
  | condition :: rest, result, currentLogicOp =>
    let conditionResult := evaluateCondition cmpNum rx condition ctx
    let result2 :=
      if currentLogicOp == "and" then result && conditionResult
      else result || conditionResult
    let nextOp := if condition.logicOp != "" then condition.logicOp else currentLogicOp
    evalCondLoop cmpNum rx ctx rest result2 nextOp

/-- `ABACHandlerImpl.evaluatePolicy`: zero conditions never match;
otherwise the strict left-to-right loop with `result` seeded by the
first condition and `currentLogicOp` seeded `"and"`. -/
def evaluatePolicy (cmpNum : String → String → Int)
    (rx : String → String → Bool)
    (policy : ABACPolicy) (ctx : PolicyEvaluationContext) : Bool :=
  match policy.conditions with
  | [] => false
  | c0 :: rest =>
    let r0 := evaluateCondition cmpNum rx c0 ctx
    let op0 := if c0.logicOp != "" then c0.logicOp else "and"
    evalCondLoop cmpNum rx ctx rest r0 op0

/-- The descending-priority order used by `Enforce`'s
`sort.Slice(..., Priority i > Priority j)`. -/
def prioGE (a b : ABACPolicy) : Prop := b.priority ≤ a.priority

instance : DecidableRel prioGE := fun a b => inferInstanceAs (Decidable (b.priority ≤ a.priority))

instance : IsTotal ABACPolicy prioGE := ⟨fun a b => le_total b.priority a.priority⟩

instance : IsTrans ABACPolicy prioGE := ⟨fun _ _ _ h1 h2 => le_trans h2 h1⟩

/-- The sort in `ABACHandlerImpl.Enforce`.  The Go code applies the
unstable `sort.Slice` to a nondeterministically ordered map snapshot;
we model the snapshot order by the input list order and the sort by a
stable insertion sort — every run of the Go code corresponds to this
model applied to some permutation of the cached policies. -/
def sortPoliciesDesc (policies : List ABACPolicy) : List ABACPolicy :=
  List.insertionSort prioGE policies

/-- The policy loop of `ABACHandlerImpl.Enforce`: first match wins; a
matching policy whose effect is neither `"allow"` nor `"deny"` is
skipped. -/
def enforcePoliciesLoop (cmpNum : String → String → Int)
    (rx : String → String → Bool) (ctx : PolicyEvaluationContext) :
    List ABACPolicy → Bool
  | [] => false
  | policy :: rest =>
    if evaluatePolicy cmpNum rx policy ctx then
      if policy.effect == "allow" then true
      else if policy.effect == "deny" then false
      else enforcePoliciesLoop cmpNum rx ctx rest
    else enforcePoliciesLoop cmpNum rx ctx rest

/-- `ABACHandlerImpl.Enforce` from the point where the evaluation
context has been built (the cited lines 345–366): snapshot, sort
descending by priority, first-match loop, default deny. -/
def enforceABAC (cmpNum : String → String → Int)
    (rx : String → String → Bool)
    (policies : List ABACPolicy) (ctx : PolicyEvaluationContext) : Bool :=
  enforcePoliciesLoop cmpNum rx ctx (sortPoliciesDesc policies)

-- Sanity checks while developing (concrete evaluation).
example :
    evaluateOperator (fun a b => cmpChars a.data b.data) (fun _ _ => false) "x" "eq" "x" = true := by
  decide

example : evaluateIn "top_secret" "secret, top_secret" = true := by decide

/-! ## ReBAC engine (`rebac_enforcer_impl.go`) -/

/-- The in-memory graph `relationships map[string][]Relationship`,
keyed `subject:relationshipType`, as an association list.  Theorems
quantify over every list, covering every Go map iteration order. -/
abbrev RelStore := List (String × List Relationship)

/-- Go map indexing `m[key]` on the relationship map: missing keys give
the zero value `[]`. -/
def assocFind (store : RelStore) (key : String) : List Relationship :=
  match store with
  | [] => []
  | (k, rels) :: rest => if k == key then rels else assocFind rest key

/-- `m[key] = append(m[key], rel)`: extend an existing key's list or
create the key. -/
def addToKey (store : RelStore) (key : String) (rel : Relationship) : RelStore :=
  match store with
  | [] => [(key, [rel])]
  | (k, rels) :: rest =>
    if k == key then (k, rels ++ [rel]) :: rest
    else (k, rels) :: addToKey rest key rel

/-- The cache mutation of `ReBACEnforcerImpl.AddRelationship`: insert
the forward entry under `subject:relationship` and the reverse entry
under `object:reverse_relationship`. -/
def addRelCache (store : RelStore) (subject relationship object : String) : RelStore :=
  let store1 := addToKey store (subject ++ ":" ++ relationship)
    { subject := subject, relationship := relationship, object := object }
  addToKey store1 (object ++ ":reverse_" ++ relationship)
    { subject := object, relationship := "reverse_" ++ relationship, object := subject }

/-- Remove the first relationship in the list whose object matches
(the `break`-terminated loop in `RemoveRelationship`). -/
def removeFirstRel (obj : String) : List Relationship → List Relationship
  | [] => []
  | rel :: rest => if rel.object == obj then rest else rel :: removeFirstRel obj rest

/-- Apply `removeFirstRel` at a key if the key is present (an absent
key is left absent: the Go loop over a nil slice does not assign). -/
def removeRelAt (store : RelStore) (key obj : String) : RelStore :=
  store.map (fun kv => if kv.1 == key then (kv.1, removeFirstRel obj kv.2) else kv)

/-- The cache mutation of `ReBACEnforcerImpl.RemoveRelationship`. -/
def removeRelCache (store : RelStore) (subject relationship object : String) : RelStore :=
  removeRelAt (removeRelAt store (subject ++ ":" ++ relationship) object)
    (object ++ ":reverse_" ++ relationship) subject

/-- `initializeDefaultPermissions`: the fixed relationship→permission map. -/
def defaultPermissions : List (String × List String) :=
  [("owner", ["read", "write", "delete", "admin"]),
   ("editor", ["read", "write", "edit"]),
   ("viewer", ["read", "view"]),
   ("member", ["inherit"]),
   ("group_access", ["read", "write"]),
   ("parent", ["inherit"]),
   ("friend", ["read_limited"]),
   ("manager", ["read", "write", "delete", "manage"])]

/-- Go map indexing on the permission map (zero value `[]`). -/
def permsFor (relationship : String) : List String :=
  match defaultPermissions.lookup relationship with
  | some perms => perms
  | none => []

/-- `hasPermissionThroughRelationship`: the permission is listed, or
`admin` is listed (admin implies all). -/
def hasPermissionThroughRelationship (relationship permission : String) : Bool :=
  (permsFor relationship).any (fun perm => perm == permission || perm == "admin")

/-- `mapActionToPermission`. -/
def mapActionToPermission (action : String) : String :=
  match action with
  | "view" => "read"
  | "edit" => "write"
  | "update" => "write"
  | "modify" => "write"
  | "remove" => "delete"
  | "manage" => "admin"
  | "administer" => "admin"
  | _ => action

/-- `getDirectRelationships`: every forward (non-`reverse_`) entry of
the subject whose key splits into exactly two parts, filtered by
object, in store order. -/
def getDirectRelationships (store : RelStore) (subject object : String) :
    List Relationship :=
  store.flatMap (fun kv =>
    match goSplitColon kv.1 with
    | [a, b] =>
      if a == subject && !(strStarts b "reverse_") then
        kv.2.filter (fun rel => rel.object == object)
      else []
    | _ => [])

/-- `GetRelationships` (error-free value): forward entries of the
subject, or all forward entries if the subject is empty. -/
def getRelationships (store : RelStore) (subject : String) : List Relationship :=
  if subject != "" then
    store.flatMap (fun kv =>
      match goSplitColon kv.1 with
      | [a, b] => if a == subject && !(strStarts b "reverse_") then kv.2 else []
      | _ => [])
  else
    store.flatMap (fun kv =>
      match goSplitColon kv.1 with
      | [_, b] => if !(strStarts b "reverse_") then kv.2 else []
      | _ => [])

/-- A breadth-first-search queue entry of `FindRelationshipPath`. -/
structure QItem where
  node : String
  path : String
  depth : Nat
deriving DecidableEq, Repr

/-- The neighbor scan of the BFS loop: all `(relationshipType, object)`
pairs reachable from `node` through forward entries, in store order. -/
def neighborsOf (store : RelStore) (node : String) : List (String × String) :=
  store.flatMap (fun kv =>
    match goSplitColon kv.1 with
    | [a, b] =>
      if a == node && !(strStarts b "reverse_") then
        kv.2.map (fun rel => (b, rel.object))
      else []
    | _ => [])

/-- The BFS loop of `FindRelationshipPath`, with explicit fuel; `none`
models a search that has not finished within the fuel. -/
def bfs (store : RelStore) (target : String) (maxDepth : Nat) :
    Nat → List String → List QItem → Option (Bool × String)
  | 0, _, _ => none
  | _ + 1, _, [] => some (false, "")
  | fuel + 1, visited, current :: queue =>
    if current.depth > maxDepth then bfs store target maxDepth fuel visited queue
    else if current.node == target then some (true, current.path)
    else if visited.contains current.node then bfs store target maxDepth fuel visited queue
    else
      let visited2 := current.node :: visited
      let newItems := (neighborsOf store current.node).filterMap (fun rn =>
        if visited2.contains rn.2 then none
        else some { node := rn.2,
                    path := current.path ++ " -[" ++ rn.1 ++ "]-> " ++ rn.2,
                    depth := current.depth + 1 })
      bfs store target maxDepth fuel visited2 (queue ++ newItems)

/-- Fuel that is generous for the concrete stores evaluated in this
file (the Go BFS always terminates; no claim depends on the bound). -/
def bfsFuel (store : RelStore) : Nat :=
  let total := store.foldl (fun acc kv => acc + kv.2.length) 0
  (total + 2) * (total + 2)

/-- `FindRelationshipPath`: `maxDepth ≤ 0` is substituted with the
default 5, then BFS from the subject. -/
def findRelationshipPath (store : RelStore) (subject targetObject : String)
    (maxDepth : Int) : Option (Bool × String) :=
  let md : Nat := if maxDepth ≤ 0 then 5 else maxDepth.toNat
  bfs store targetObject md (bfsFuel store) []
    [{ node := subject, path := subject, depth := 0 }]

/-- `checkSocialAccess`: run the path finder; success requires a found
path containing the literal `"friend"` and the `friend` mapping
granting `read_limited`.  Outer `none` models an unfinished search. -/
def checkSocialAccess (store : RelStore) (subject object : String)
    (maxDepth : Int) : Option (Option String) :=
  match findRelationshipPath store subject object maxDepth with
  | none => none
  | some (found, path) =>
    if found && strContains path "friend" &&
        hasPermissionThroughRelationship "friend" "read_limited" then
      some (some path)
    else some none

/-- The direct-relationship loop at the top of `Enforce`. -/
def findDirectPath (store : RelStore) (subject object permission : String) :
    Option String :=
  (getDirectRelationships store subject object).findSome? (fun rel =>
    if hasPermissionThroughRelationship rel.relationship permission then
      some (subject ++ " -[" ++ rel.relationship ++ "]-> " ++ object)
    else none)

/-- `checkGroupAccess`: for each group the subject is a `member` of,
scan the group's direct relationships to the object. -/
def checkGroupAccess (store : RelStore) (subject object permission : String) :
    Option String :=
  (assocFind store (subject ++ ":member")).findSome? (fun groupRel =>
    (getDirectRelationships store groupRel.object object).findSome? (fun rel =>
      if hasPermissionThroughRelationship rel.relationship permission then
        some (subject ++ " -[member]-> " ++ groupRel.object ++ " -[" ++
          rel.relationship ++ "]-> " ++ object)
      else none))

/-- Inner loop of `checkHierarchicalAccess` over one key's
relationship list; `enf` is the recursive `Enforce` call on the parent
object.  Result `none` models divergence of the recursion, `some none`
"no access found here". -/
def hierRels (enf : String → Option (Bool × String)) (parentObject object : String) :
    List Relationship → Option (Option String)
  | [] => some none
  | rel :: rest =>
    if rel.object == object then
      match enf parentObject with
      | none => none
      | some (true, parentPath) =>
        some (some (parentPath ++ " -> " ++ parentObject ++ " -[parent]-> " ++ object))
      | some (false, _) => hierRels enf parentObject object rest
    else hierRels enf parentObject object rest

/-- Outer loop of `checkHierarchicalAccess` over the store's keys:
keys of shape `parentObject:parent` are scanned for edges to `object`. -/
def hierEntries (enf : String → Option (Bool × String)) (object : String) :
    RelStore → Option (Option String)
  | [] => some none
  | (key, rels) :: rest =>
    match goSplitColon key with
    | [parentObject, relname] =>
      if relname == "parent" then
        match hierRels enf parentObject object rels with
        | none => none
        | some (some path) => some (some path)
        | some none => hierEntries enf object rest
      else hierEntries enf object rest
    | _ => hierEntries enf object rest

/-- `checkHierarchicalAccess` with the recursive enforcement call
abstracted as `enf`. -/
def checkHierarchicalAccess (enf : String → Option (Bool × String))
    (store : RelStore) (object : String) : Option (Option String) :=
  hierEntries enf object store

/-- `ReBACEnforcerImpl.Enforce` (error-free path), with fuel bounding
the unguarded hierarchical recursion: `none` models a call that does
not return within the fuel.  The four checks run in source order:
direct, group, hierarchical, social. -/
def rebacEnforce : Nat → RelStore → String → String → String → Option (Bool × String)
  | 0, _, _, _, _ => none
  | fuel + 1, store, subject, object, action =>
    let permission := mapActionToPermission action
    match findDirectPath store subject object permission with
    | some path => some (true, path)
    | none =>
      match checkGroupAccess store subject object permission with
      | some path => some (true, path)
      | none =>
        match checkHierarchicalAccess
            (fun parentObject => rebacEnforce fuel store subject parentObject permission)
            store object with
        | none => none
        | some (some path) => some (true, path)
        | some none =>
          if permission == "read" || permission == "read_limited" then
            match checkSocialAccess store subject object 3 with
            | none => none
            | some (some path) => some (true, path)
            | some none => some (false, "")
          else some (false, "")

-- Sanity: scenario S4 of the spec (group access).
example :
    rebacEnforce 3 (addRelCache (addRelCache [] "alice" "member" "eng_team")
      "eng_team" "group_access" "source_code") "alice" "source_code" "read" =
    some (true, "alice -[member]-> eng_team -[group_access]-> source_code") := by
  decide

-- Sanity: scenario S5 (editor without delete).
example :
    rebacEnforce 3 (addRelCache [] "bob" "editor" "doc1") "bob" "doc1" "write" =
    some (true, "bob -[editor]-> doc1") := by
  decide

example :
    rebacEnforce 3 (addRelCache [] "bob" "editor" "doc1") "bob" "doc1" "delete" =
    some (false, "") := by
  decide

/-! ## Administrative write paths (C9) -/

/-- `domain.ABACPolicy.Validate`. -/
def validateConditions : Nat → List PolicyCondition → Except String Unit
  | _, [] => Except.ok ()
  | i, cond :: rest =>
    if cond.type == "" || cond.field == "" || cond.operator == "" || cond.value == "" then
      Except.error ("condition " ++ toString i ++ ": type, field, operator, and value cannot be empty")
    else if cond.logicOp != "" && cond.logicOp != "and" && cond.logicOp != "or" then
      Except.error ("condition " ++ toString i ++ ": logic_op must be 'and' or 'or' or empty")
    else validateConditions (i + 1) rest

/-- `domain.ABACPolicy.Validate`: id, name, effect, then each condition. -/
def validatePolicy (p : ABACPolicy) : Except String Unit :=
  if p.id == "" then Except.error "policy ID cannot be empty"
  else if p.name == "" then Except.error "policy name cannot be empty"
  else if p.effect != "allow" && p.effect != "deny" then
    Except.error "policy effect must be 'allow' or 'deny'"
  else validateConditions 0 p.conditions

/-- The ABAC policy cache `map[string]*ABACPolicy` as an association list. -/
abbrev ABACCache := List (String × ABACPolicy)

/-- Cache lookup (`policies[id]` with presence flag). -/
def cacheFind (cache : ABACCache) (id : String) : Option ABACPolicy :=
  match cache with
  | [] => none
  | (k, p) :: rest => if k == id then some p else cacheFind rest id

/-- Map store `policies[id] = p` (replace or append). -/
def cacheSet (cache : ABACCache) (id : String) (p : ABACPolicy) : ABACCache :=
  match cache with
  | [] => [(id, p)]
  | (k, q) :: rest => if k == id then (k, p) :: rest else (k, q) :: cacheSet rest id p

/-- Map delete `delete(policies, id)`. -/
def cacheErase (cache : ABACCache) (id : String) : ABACCache :=
  match cache with
  | [] => []
  | (k, q) :: rest => if k == id then rest else (k, q) :: cacheErase rest id

/-- `ABACHandlerImpl.AddPolicy`.  `repoResult` is the outcome of the
repository write `policyRepo.AddPolicy`; `now` the clock.  Returns the
call result together with the cache after the call. -/
def abacAddPolicy (repoResult : Except String Unit) (now : Nat)
    (cache : ABACCache) (policy : ABACPolicy) : Except String Unit × ABACCache :=
  match validatePolicy policy with
  | Except.error e => (Except.error ("invalid ABAC policy: " ++ e), cache)
  | Except.ok () =>
    match cacheFind cache policy.id with
    | some _ => (Except.error "already exists", cache)
    | none =>
      let policy := { policy with createdAt := now, updatedAt := now }
      match repoResult with
      | Except.error e =>
        (Except.error ("failed to add policy to repository: " ++ e), cache)
      | Except.ok () => (Except.ok (), cacheSet cache policy.id policy)

/-- `ABACHandlerImpl.UpdatePolicy`. -/
def abacUpdatePolicy (repoResult : Except String Unit) (now : Nat)
    (cache : ABACCache) (policy : ABACPolicy) : Except String Unit × ABACCache :=
  match validatePolicy policy with
  | Except.error e => (Except.error ("invalid ABAC policy: " ++ e), cache)
  | Except.ok () =>
    match cacheFind cache policy.id with
    | none => (Except.error "not found", cache)
    | some _ =>
      let policy := { policy with updatedAt := now }
      match repoResult with
      | Except.error e =>
        (Except.error ("failed to update policy in repository: " ++ e), cache)
      | Except.ok () => (Except.ok (), cacheSet cache policy.id policy)

/-- `ABACHandlerImpl.RemovePolicy`. -/
def abacRemovePolicy (repoResult : Except String Unit)
    (cache : ABACCache) (policyID : String) : Except String Unit × ABACCache :=
  match cacheFind cache policyID with
  | none => (Except.error "not found", cache)
  | some _ =>
    match repoResult with
    | Except.error e =>
      (Except.error ("failed to remove policy from repository: " ++ e), cache)
    | Except.ok () => (Except.ok (), cacheErase cache policyID)

/-- `ReBACEnforcerImpl.AddRelationship`: repository write first, cache
mutation only on success. -/
def rebacAddRelationship (repoResult : Except String Unit) (store : RelStore)
    (subject relationship object : String) : Except String Unit × RelStore :=
  match repoResult with
  | Except.error e =>
    (Except.error ("failed to save relationship to repository: " ++ e), store)
  | Except.ok () => (Except.ok (), addRelCache store subject relationship object)

/-- `ReBACEnforcerImpl.RemoveRelationship`: repository write first,
cache mutation only on success. -/
def rebacRemoveRelationship (repoResult : Except String Unit) (store : RelStore)
    (subject relationship object : String) : Except String Unit × RelStore :=
  match repoResult with
  | Except.error e =>
    (Except.error ("failed to remove relationship from repository: " ++ e), store)
  | Except.ok () => (Except.ok (), removeRelCache store subject relationship object)

/-! ## Dispatchers (C5) -/

/-- Which engine a dispatcher handed the request to. -/
inductive Routed where
  | acl | rbac | abac | rebac
deriving DecidableEq, Repr

/-- Outcome of a dispatcher call, abstracting the engine invocation. -/
inductive DispatchOutcome where
  | routed (engine : Routed)
  | invalidModel (model : String)
  | unavailable
deriving DecidableEq, Repr

/-- `AuthService.Enforce` in `main.go` (lines 1058–1083): empty model
is replaced by RBAC, then the switch routes (`getEnforcer` maps acl
and rbac to their enforcers). -/
def authServiceRoute (model : String) : DispatchOutcome :=
  let model := if model == "" then "rbac" else model
  if model == "acl" then DispatchOutcome.routed Routed.acl
  else if model == "rbac" then DispatchOutcome.routed Routed.rbac
  else if model == "abac" then DispatchOutcome.routed Routed.abac
  else if model == "rebac" then DispatchOutcome.routed Routed.rebac
  else DispatchOutcome.invalidModel model

/-- `AuthorizationServiceImpl.Enforce` in
`internal/core/services/authorization_service_impl.go`: the switch has
no empty-model substitution; a model that is none of the four constants
falls to the default branch `invalid model specified`.  The `has*`
flags model which enforcers were configured (non-nil). -/
def authorizationServiceImplRoute (hasACL hasRBAC hasABAC hasReBAC : Bool)
    (model : String) : DispatchOutcome :=
  if model == "acl" then
    if hasACL then DispatchOutcome.routed Routed.acl else DispatchOutcome.unavailable
  else if model == "rbac" then
    if hasRBAC then DispatchOutcome.routed Routed.rbac else DispatchOutcome.unavailable
  else if model == "abac" then
    if hasABAC then DispatchOutcome.routed Routed.abac else DispatchOutcome.unavailable
  else if model == "rebac" then
    if hasReBAC then DispatchOutcome.routed Routed.rebac else DispatchOutcome.unavailable
  else DispatchOutcome.invalidModel model

/-! ## Helper lemmas about the string embedding -/

theorem listHasPre_append_right (l t : List Char) : listHasPre l (l ++ t) = true := by
  induction l with
  | nil => rfl
  | cons a as ih => simp [listHasPre, ih]

theorem listHasPre_refl (l : List Char) : listHasPre l l = true := by
  have h := listHasPre_append_right l []
  simpa using h

theorem listHasPre_mono {p l : List Char} (t : List Char)
    (h : listHasPre p l = true) : listHasPre p (l ++ t) = true := by
  induction p generalizing l with
  | nil => rfl
  | cons a as ih =>
    cases l with
    | nil => simp [listHasPre] at h
    | cons b bs =>
      simp [listHasPre] at h ⊢
      exact ⟨h.1, ih h.2⟩

theorem strStarts_self (s : String) : strStarts s s = true :=
  listHasPre_refl s.data

theorem strStarts_append_right (s t : String) : strStarts (s ++ t) s = true := by
  simp [strStarts, String.data_append, listHasPre_append_right]

theorem strStarts_extend {s p : String} (t : String)
    (h : strStarts s p = true) : strStarts (s ++ t) p = true := by
  simp only [strStarts, String.data_append]
  exact listHasPre_mono t.data h

theorem strEnds_append_left (t s : String) : strEnds (t ++ s) s = true := by
  simp [strEnds, String.data_append, List.reverse_append, listHasPre_append_right]

theorem strEnds_self (s : String) : strEnds s s = true :=
  listHasPre_refl s.data.reverse

theorem splitChars_ne_nil (c : Char) (l : List Char) : splitChars c l ≠ [] := by
  induction l with
  | nil => simp [splitChars]
  | cons x xs ih =>
    simp only [splitChars]
    by_cases hx : x == c
    · simp [hx]
    · simp only [hx]
      cases h : splitChars c xs with
      | nil => simp
      | cons a t => simp

theorem splitChars_append (c : Char) (as bs : List Char) :
    splitChars c (as ++ c :: bs) = splitChars c as ++ splitChars c bs := by
  induction as with
  | nil => simp [splitChars]
  | cons x xs ih =>
    by_cases hx : x == c
    · simp [splitChars, hx, ih]
    · simp only [List.cons_append, splitChars, hx, Bool.false_eq_true, if_false, ih]
      cases h : splitChars c xs with
      | nil => exact absurd h (splitChars_ne_nil c xs)
      | cons a t => rw [List.append_eq, ih, h]; simp

theorem splitChars_no_sep {c : Char} {l : List Char} (h : c ∉ l) :
    splitChars c l = [l] := by
  induction l with
  | nil => rfl
  | cons x xs ih =>
    simp only [List.mem_cons, not_or] at h
    have hx : (x == c) = false := by
      simp only [beq_eq_false_iff_ne, ne_eq]
      exact fun he => h.1 (by simp [he])
    simp [splitChars, hx, ih h.2]

theorem splitChars_length_ge_two {c : Char} {l : List Char} (h : c ∈ l) :
    2 ≤ (splitChars c l).length := by
  induction l with
  | nil => simp at h
  | cons x xs ih =>
    by_cases hx : x == c
    · simp only [splitChars, hx, if_true, List.length_cons]
      have h1 : 1 ≤ (splitChars c xs).length :=
        List.length_pos.mpr (splitChars_ne_nil c xs)
      omega
    · have hxc : ¬(x = c) := by simpa using hx
      have hm : c ∈ xs := by
        rcases List.mem_cons.mp h with h1 | h2
        · exact absurd h1.symm hxc
        · exact h2
      have h2 := ih hm
      simp only [splitChars, hx, Bool.false_eq_true, if_false]
      cases hs : splitChars c xs with
      | nil => exact absurd hs (splitChars_ne_nil c xs)
      | cons a t =>
        rw [hs] at h2
        simpa using h2

theorem string_mk_data (s : String) : String.mk s.data = s := rfl

theorem data_colon_append (s r : String) :
    (s ++ ":" ++ r).data = s.data ++ ':' :: r.data := by
  simp [String.data_append]

theorem goSplitColon_append (s r : String) :
    goSplitColon (s ++ ":" ++ r) = goSplitColon s ++ goSplitColon r := by
  simp [goSplitColon, data_colon_append, splitChars_append]

/-! ## C4: RBAC role disjunction -/

theorem matchesTriple_iff (p : List String) (s o a : String) :
    matchesTriple p s o a = true ↔ p = [s, o, a] := by
  match p with
  | [] => simp [matchesTriple]
  | [x] => simp [matchesTriple]
  | [x, y] => simp [matchesTriple]
  | [x, y, z] => simp [matchesTriple, and_assoc]
  | x :: y :: z :: w :: rest => simp [matchesTriple]

/-- C4: RBAC Enforce(u, o, a) returns true iff the triple (u, o, a) is
in the policy set or some role r assigned to u has (r, o, a) in the
policy set; the role list is consulted once, with no role-to-role
indirection. -/
theorem rbac_role_disjunction (policies : List (List String)) (roles : List String)
    (subject object action : String) :
    rbacEnforce policies roles subject object action = true ↔
      ([subject, object, action] ∈ policies ∨
        ∃ role ∈ roles, [role, object, action] ∈ policies) := by
  simp [rbacEnforce, List.any_eq_true, matchesTriple_iff]

/-! ## C5: dispatcher default model -/

/-- C5 counterexample: the hexagonal core dispatcher
`AuthorizationServiceImpl.Enforce`, with all four engines configured,
rejects the empty model string as an invalid model instead of routing
it to the RBAC engine. -/
theorem dispatcher_empty_model_counterexample :
    authorizationServiceImplRoute true true true true "" =
        DispatchOutcome.invalidModel "" ∧
      authorizationServiceImplRoute true true true true "" ≠
        DispatchOutcome.routed Routed.rbac := by
  decide

/-- C5 (amended): the `main.go` dispatcher `AuthService.Enforce`
substitutes RBAC for an empty model, while the hexagonal core
dispatcher `AuthorizationServiceImpl.Enforce` performs no substitution
and rejects the empty model as invalid, whatever engines are
configured. -/
theorem dispatcher_empty_model_split :
    authServiceRoute "" = DispatchOutcome.routed Routed.rbac ∧
      ∀ hasACL hasRBAC hasABAC hasReBAC : Bool,
        authorizationServiceImplRoute hasACL hasRBAC hasABAC hasReBAC "" =
          DispatchOutcome.invalidModel "" := by
  exact ⟨rfl, by decide⟩

/-! ## C8: FindRelationshipPath with maxDepth = 0 -/

theorem bfsFuel_pos (store : RelStore) : 1 ≤ bfsFuel store := by
  unfold bfsFuel
  nlinarith [Nat.zero_le (store.foldl (fun acc kv => acc + kv.2.length) 0)]

/-- C8 counterexample: with one `owner` edge, `FindRelationshipPath`
called with `maxDepth = 0` returns true although the subject differs
from the target: `maxDepth ≤ 0` is substituted with the default 5. -/
theorem findPath_depth_zero_counterexample :
    findRelationshipPath (addRelCache [] "alice" "owner" "doc") "alice" "doc" 0 =
        some (true, "alice -[owner]-> doc") ∧ "alice" ≠ "doc" := by
  constructor
  · rfl
  · decide

/-- C8 (amended): `maxDepth = 0` is substituted with the default depth
5, so the path finder behaves exactly as with `maxDepth = 5`; it
returns true whenever the subject equals the target, and it may also
return true for distinct reachable targets. -/
theorem findPath_depth_zero_amended (store : RelStore) (subject target : String)
    (d : Int) :
    findRelationshipPath store subject target 0 =
        findRelationshipPath store subject target 5 ∧
      findRelationshipPath store subject subject d = some (true, subject) := by
  constructor
  · simp [findRelationshipPath]
  · obtain ⟨f, hf⟩ : ∃ f, bfsFuel store = f + 1 :=
      ⟨bfsFuel store - 1, by have := bfsFuel_pos store; omega⟩
    simp [findRelationshipPath, hf, bfs]

/-! ## C9: repository write precedes cache mutation -/

theorem abacAddPolicy_repo_fail (e : String) (now : Nat) (cache : ABACCache)
    (policy : ABACPolicy) :
    (abacAddPolicy (Except.error e) now cache policy).2 = cache ∧
      ∃ msg, (abacAddPolicy (Except.error e) now cache policy).1 = Except.error msg := by
  unfold abacAddPolicy
  cases hv : validatePolicy policy with
  | error msg => exact ⟨rfl, _, rfl⟩
  | ok u =>
    cases u
    cases hf : cacheFind cache policy.id with
    | some p => exact ⟨rfl, _, rfl⟩
    | none => exact ⟨rfl, _, rfl⟩

theorem abacUpdatePolicy_repo_fail (e : String) (now : Nat) (cache : ABACCache)
    (policy : ABACPolicy) :
    (abacUpdatePolicy (Except.error e) now cache policy).2 = cache ∧
      ∃ msg, (abacUpdatePolicy (Except.error e) now cache policy).1 = Except.error msg := by
  unfold abacUpdatePolicy
  cases hv : validatePolicy policy with
  | error msg => exact ⟨rfl, _, rfl⟩
  | ok u =>
    cases u
    cases hf : cacheFind cache policy.id with
    | some p => exact ⟨rfl, _, rfl⟩
    | none => exact ⟨rfl, _, rfl⟩

theorem abacRemovePolicy_repo_fail (e : String) (cache : ABACCache) (id : String) :
    (abacRemovePolicy (Except.error e) cache id).2 = cache ∧
      ∃ msg, (abacRemovePolicy (Except.error e) cache id).1 = Except.error msg := by
  unfold abacRemovePolicy
  cases hf : cacheFind cache id with
  | some p => exact ⟨rfl, _, rfl⟩
  | none => exact ⟨rfl, _, rfl⟩

/-- C9: for each mutating engine operation (ABAC AddPolicy,
UpdatePolicy, RemovePolicy; ReBAC AddRelationship, RemoveRelationship),
when the repository write fails the operation returns an error and the
in-memory cache it returns is exactly the cache it was given. -/
theorem write_through_repo_failure (e : String) (now : Nat) (cache : ABACCache)
    (policy : ABACPolicy) (id : String) (store : RelStore) (s r o : String) :
    ((abacAddPolicy (Except.error e) now cache policy).2 = cache ∧
        ∃ msg, (abacAddPolicy (Except.error e) now cache policy).1 = Except.error msg) ∧
      ((abacUpdatePolicy (Except.error e) now cache policy).2 = cache ∧
        ∃ msg, (abacUpdatePolicy (Except.error e) now cache policy).1 = Except.error msg) ∧
      ((abacRemovePolicy (Except.error e) cache id).2 = cache ∧
        ∃ msg, (abacRemovePolicy (Except.error e) cache id).1 = Except.error msg) ∧
      ((rebacAddRelationship (Except.error e) store s r o).2 = store ∧
        ∃ msg, (rebacAddRelationship (Except.error e) store s r o).1 = Except.error msg) ∧
      ((rebacRemoveRelationship (Except.error e) store s r o).2 = store ∧
        ∃ msg, (rebacRemoveRelationship (Except.error e) store s r o).1 = Except.error msg) :=
  ⟨abacAddPolicy_repo_fail e now cache policy,
   abacUpdatePolicy_repo_fail e now cache policy,
   abacRemovePolicy_repo_fail e cache id,
   ⟨rfl, _, rfl⟩,
   ⟨rfl, _, rfl⟩⟩

/-! ## C1: ABAC priority order -/

theorem enforcePoliciesLoop_first_match (cmpNum : String → String → Int)
    (rx : String → String → Bool) (ctx : PolicyEvaluationContext)
    (l : List ABACPolicy)
    (hvalid : ∀ p ∈ l, p.effect = "allow" ∨ p.effect = "deny") :
    enforcePoliciesLoop cmpNum rx ctx l =
      match l.find? (fun p => evaluatePolicy cmpNum rx p ctx) with
      | some p => p.effect == "allow"
      | none => false := by
  induction l with
  | nil => rfl
  | cons p rest ih =>
    by_cases hm : evaluatePolicy cmpNum rx p ctx = true
    · rcases hvalid p (List.mem_cons_self p rest) with he | he <;>
        simp [enforcePoliciesLoop, List.find?_cons, hm, he]
    · have hmf : evaluatePolicy cmpNum rx p ctx = false := by
        cases h : evaluatePolicy cmpNum rx p ctx
        · rfl
        · exact absurd h hm
      simp only [enforcePoliciesLoop, List.find?_cons, hmf, Bool.false_eq_true, if_false]
      exact ih (fun q hq => hvalid q (List.mem_cons_of_mem p hq))

/-- C1 (amended): for every snapshot order of the policy cache, ABAC
Enforce evaluates the policies in descending priority order — the
sorted sequence is a permutation of the snapshot, sorted by `prioGE` —
and returns true iff the first matching policy of that sequence has
effect "allow" (false on "deny" or no match).  The order of
equal-priority policies is the snapshot order, which Go does not
determine, so the result is not in general a function of the policy
set alone. -/
theorem abac_priority_first_match (cmpNum : String → String → Int)
    (rx : String → String → Bool) (policies : List ABACPolicy)
    (ctx : PolicyEvaluationContext)
    (hvalid : ∀ p ∈ policies, p.effect = "allow" ∨ p.effect = "deny") :
    (enforceABAC cmpNum rx policies ctx =
        match (sortPoliciesDesc policies).find?
            (fun p => evaluatePolicy cmpNum rx p ctx) with
        | some p => p.effect == "allow"
        | none => false) ∧
      (sortPoliciesDesc policies).Sorted prioGE ∧
      (sortPoliciesDesc policies).Perm policies := by
  refine ⟨?_, List.sorted_insertionSort prioGE policies,
    List.perm_insertionSort prioGE policies⟩
  refine enforcePoliciesLoop_first_match cmpNum rx ctx _ ?_
  intro p hp
  exact hvalid p ((List.perm_insertionSort prioGE policies).mem_iff.mp hp)

/-- A context in which the example condition below is true. -/
def ctx0 : PolicyEvaluationContext :=
  { userAttributes := [], objectAttributes := [], environmentAttributes := [],
    actionAttributes := [], subject := "u", object := "o", action := "a" }

/-- A condition satisfied by `ctx0` (subject equals "u"). -/
def condTrue : PolicyCondition :=
  { id := 0, policyId := "", type := "subject", field := "subject",
    operator := "eq", value := "u", logicOp := "" }

/-- A condition falsified by `ctx0`. -/
def condFalse : PolicyCondition :=
  { id := 0, policyId := "", type := "subject", field := "subject",
    operator := "eq", value := "zzz", logicOp := "" }

/-- Allow policy, priority 1. -/
def polAllow : ABACPolicy :=
  { id := "p1", name := "n1", description := "", effect := "allow",
    priority := 1, conditions := [condTrue], createdAt := 0, updatedAt := 0 }

/-- Deny policy, same priority 1. -/
def polDeny : ABACPolicy :=
  { id := "p2", name := "n2", description := "", effect := "deny",
    priority := 1, conditions := [condTrue], createdAt := 0, updatedAt := 0 }

/-- Trivial stand-ins for the abstracted numeric comparison and regex
matcher, used in concrete evaluations. -/
def cmp0 : String → String → Int := fun _ _ => 0

/-- See `cmp0`. -/
def rx0 : String → String → Bool := fun _ _ => false

/-- C1 counterexample: the same two-policy set (an allow and a deny
policy of equal priority, both matching) yields `true` under one
snapshot order and `false` under the other, so the result is not
determined by the policy set and the evaluation context alone, and no
stable tie-break is guaranteed. -/
theorem abac_priority_counterexample :
    enforceABAC cmp0 rx0 [polAllow, polDeny] ctx0 = true ∧
      enforceABAC cmp0 rx0 [polDeny, polAllow] ctx0 = false ∧
      List.Perm [polAllow, polDeny] [polDeny, polAllow] := by
  refine ⟨by decide, by decide, List.Perm.swap polDeny polAllow []⟩

/-- C1 witness: the amended theorem applied to the concrete snapshot
`[polAllow, polDeny]` in context `ctx0`. -/
theorem abac_priority_first_match_witness :
    enforceABAC cmp0 rx0 [polAllow, polDeny] ctx0 =
      match (sortPoliciesDesc [polAllow, polDeny]).find?
          (fun p => evaluatePolicy cmp0 rx0 p ctx0) with
      | some p => p.effect == "allow"
      | none => false :=
  (abac_priority_first_match cmp0 rx0 [polAllow, polDeny] ctx0 (by decide)).1

/-! ## C2: ABAC condition left-fold -/

/-- The two logic operators of the specified fold. -/
inductive LogicOp where
  | andOp
  | orOp
deriving DecidableEq, Repr

/-- Apply a logic operator, per the claim: `result op eval(ci)`. -/
def applyLogic : LogicOp → Bool → Bool → Bool
  | LogicOp.andOp, a, b => a && b
  | LogicOp.orOp, a, b => a || b

/-- The string form of a logic operator, linking the specified fold to
the string-typed accumulator of the code. -/
def strOfOp : LogicOp → String
  | LogicOp.andOp => "and"
  | LogicOp.orOp => "or"

/-- Per the claim: update `op` to the logic_op of the previous
condition when that logic_op is non-empty, retaining it otherwise. -/
def specUpdateOp (op : LogicOp) (c : PolicyCondition) : LogicOp :=
  if c.logicOp = "and" then LogicOp.andOp
  else if c.logicOp = "or" then LogicOp.orOp
  else op

/-- Spec-side fold, written from the words of the claim: state is
`(result, op, previous condition)`; each step first updates `op` from
the previous condition, then combines with the next evaluation. -/
def specFoldGo (evalc : PolicyCondition → Bool) :
    Bool → LogicOp → PolicyCondition → List PolicyCondition → Bool
  | result, _, _, [] => result
  | result, op, prev, ci :: rest =>
    let op2 := specUpdateOp op prev
    specFoldGo evalc (applyLogic op2 result (evalc ci)) op2 ci rest

/-- Spec-side evaluation of a non-empty condition list `c1 :: rest`:
start with `result = eval(c1)` and `op = and`. -/
def specFoldConditions (evalc : PolicyCondition → Bool)
    (c1 : PolicyCondition) (rest : List PolicyCondition) : Bool :=
  specFoldGo evalc (evalc c1) LogicOp.andOp c1 rest

/-- Replace the logic_op of the last condition. -/
def setLastLogicOp : List PolicyCondition → String → List PolicyCondition
  | [], _ => []
  | [c], s => [{ c with logicOp := s }]
  | c :: c2 :: rest, s => c :: setLastLogicOp (c2 :: rest) s

theorem evalCondLoop_eq_specFoldGo (cmpNum : String → String → Int)
    (rx : String → String → Bool) (ctx : PolicyEvaluationContext)
    (rest : List PolicyCondition) :
    ∀ (result : Bool) (op : LogicOp) (prev : PolicyCondition),
      (prev.logicOp = "" ∨ prev.logicOp = "and" ∨ prev.logicOp = "or") →
      (∀ c ∈ rest, c.logicOp = "" ∨ c.logicOp = "and" ∨ c.logicOp = "or") →
      evalCondLoop cmpNum rx ctx rest result
          (if prev.logicOp != "" then prev.logicOp else strOfOp op) =
        specFoldGo (fun c => evaluateCondition cmpNum rx c ctx) result op prev rest := by
  induction rest with
  | nil => intro result op prev _ _; rfl
  | cons ci rest2 ih =>
    intro result op prev hprev hall
    have hcur : (if prev.logicOp != "" then prev.logicOp else strOfOp op) =
        strOfOp (specUpdateOp op prev) := by
      rcases hprev with h | h | h <;> simp [h, specUpdateOp, strOfOp]
    rw [hcur]
    have happly : ∀ (r cr : Bool),
        (if strOfOp (specUpdateOp op prev) == "and" then r && cr else r || cr) =
          applyLogic (specUpdateOp op prev) r cr := by
      intro r cr
      cases specUpdateOp op prev <;> simp [strOfOp, applyLogic]
    have hstep : evalCondLoop cmpNum rx ctx (ci :: rest2) result
        (strOfOp (specUpdateOp op prev)) =
        evalCondLoop cmpNum rx ctx rest2
          (applyLogic (specUpdateOp op prev) result (evaluateCondition cmpNum rx ci ctx))
          (if ci.logicOp != "" then ci.logicOp else strOfOp (specUpdateOp op prev)) := by
      simp only [evalCondLoop, happly]
    rw [hstep]
    rw [ih _ (specUpdateOp op prev) ci (hall ci (List.mem_cons_self ci rest2))
      (fun c hc => hall c (List.mem_cons_of_mem ci hc))]
    rfl

theorem evaluateCondition_logicOp_irrelevant (cmpNum : String → String → Int)
    (rx : String → String → Bool) (ctx : PolicyEvaluationContext)
    (c : PolicyCondition) (s : String) :
    evaluateCondition cmpNum rx { c with logicOp := s } ctx =
      evaluateCondition cmpNum rx c ctx := rfl

theorem evalCondLoop_setLast (cmpNum : String → String → Int)
    (rx : String → String → Bool) (ctx : PolicyEvaluationContext) (s : String) :
    ∀ (l : List PolicyCondition) (result : Bool) (op : String),
      evalCondLoop cmpNum rx ctx (setLastLogicOp l s) result op =
        evalCondLoop cmpNum rx ctx l result op := by
  intro l
  induction l with
  | nil => intro result op; rfl
  | cons c rest ih =>
    intro result op
    cases rest with
    | nil => simp [setLastLogicOp, evalCondLoop, evaluateCondition_logicOp_irrelevant]
    | cons c2 rest2 =>
      simp only [setLastLogicOp, evalCondLoop]
      exact ih _ _

/-- C2: for a non-empty condition list, the evaluation of a policy
equals the specified strict left-to-right fold (result seeded by the
first condition, op seeded "and", op updated from the previous
condition when its logic_op is non-empty), provided every logic_op is
"", "and" or "or" (the validated invariant); and the logic_op of the
final condition has no effect on the result. -/
theorem abac_condition_fold (cmpNum : String → String → Int)
    (rx : String → String → Bool) (policy : ABACPolicy)
    (ctx : PolicyEvaluationContext) (c1 : PolicyCondition)
    (rest : List PolicyCondition)
    (hconds : policy.conditions = c1 :: rest)
    (hvalid : ∀ c ∈ policy.conditions,
      c.logicOp = "" ∨ c.logicOp = "and" ∨ c.logicOp = "or") :
    evaluatePolicy cmpNum rx policy ctx =
        specFoldConditions (fun c => evaluateCondition cmpNum rx c ctx) c1 rest ∧
      ∀ s, evaluatePolicy cmpNum rx
          { policy with conditions := setLastLogicOp policy.conditions s } ctx =
        evaluatePolicy cmpNum rx policy ctx := by
  constructor
  · rw [hconds] at hvalid
    simp only [evaluatePolicy, hconds]
    exact evalCondLoop_eq_specFoldGo cmpNum rx ctx rest
      (evaluateCondition cmpNum rx c1 ctx) LogicOp.andOp c1
      (hvalid c1 (List.mem_cons_self c1 rest))
      (fun c hc => hvalid c (List.mem_cons_of_mem c1 hc))
  · intro s
    simp only [evaluatePolicy]
    rw [hconds]
    cases rest with
    | nil =>
      simp [setLastLogicOp, evalCondLoop, evaluateCondition_logicOp_irrelevant]
    | cons c2 rest2 =>
      simp only [setLastLogicOp]
      exact evalCondLoop_setLast cmpNum rx ctx s (c2 :: rest2) _ _

/-- A three-condition policy exercising and/or composition. -/
def polFold : ABACPolicy :=
  { id := "p3", name := "n3", description := "", effect := "allow", priority := 0,
    conditions :=
      [{ condTrue with logicOp := "or" },
       { condFalse with logicOp := "and" },
       condTrue],
    createdAt := 0, updatedAt := 0 }

/-- C2 witness: the fold theorem applied to the concrete policy
`polFold` in context `ctx0`, with the hypotheses discharged by
evaluation; the second conjunct instantiated at the replacement
logic_op "or". -/
theorem abac_condition_fold_witness :
    (evaluatePolicy cmp0 rx0 polFold ctx0 =
        specFoldConditions (fun c => evaluateCondition cmp0 rx0 c ctx0)
          { condTrue with logicOp := "or" }
          [{ condFalse with logicOp := "and" }, condTrue]) ∧
      evaluatePolicy cmp0 rx0
          { polFold with conditions := setLastLogicOp polFold.conditions "or" } ctx0 =
        evaluatePolicy cmp0 rx0 polFold ctx0 :=
  ⟨(abac_condition_fold cmp0 rx0 polFold ctx0 _ _ rfl (by decide)).1,
   (abac_condition_fold cmp0 rx0 polFold ctx0 _ _ rfl (by decide)).2 "or"⟩

/-! ## C6: ABAC default deny -/

theorem enforcePoliciesLoop_all_false (cmpNum : String → String → Int)
    (rx : String → String → Bool) (ctx : PolicyEvaluationContext)
    (l : List ABACPolicy)
    (h : ∀ p ∈ l, evaluatePolicy cmpNum rx p ctx = false) :
    enforcePoliciesLoop cmpNum rx ctx l = false := by
  induction l with
  | nil => rfl
  | cons p rest ih =>
    simp only [enforcePoliciesLoop, h p (List.mem_cons_self p rest),
      Bool.false_eq_true, if_false]
    exact ih (fun q hq => h q (List.mem_cons_of_mem p hq))

/-- C6: ABAC Enforce returns false on the empty policy set, and
whenever no policy matches the context; and a policy with an empty
condition list never matches (so it can neither grant nor deny). -/
theorem abac_default_deny (cmpNum : String → String → Int)
    (rx : String → String → Bool) (ctx : PolicyEvaluationContext)
    (policies : List ABACPolicy)
    (hnomatch : ∀ p ∈ policies, evaluatePolicy cmpNum rx p ctx = false) :
    enforceABAC cmpNum rx [] ctx = false ∧
      enforceABAC cmpNum rx policies ctx = false ∧
      ∀ p : ABACPolicy, p.conditions = [] → evaluatePolicy cmpNum rx p ctx = false := by
  refine ⟨rfl, ?_, ?_⟩
  · refine enforcePoliciesLoop_all_false cmpNum rx ctx _ ?_
    intro p hp
    exact hnomatch p ((List.perm_insertionSort prioGE policies).mem_iff.mp hp)
  · intro p hp
    simp [evaluatePolicy, hp]

/-- A deny policy whose only condition is false in `ctx0`. -/
def polNoMatch : ABACPolicy :=
  { id := "p4", name := "n4", description := "", effect := "deny", priority := 7,
    conditions := [condFalse], createdAt := 0, updatedAt := 0 }

/-- C6 witness: the default-deny theorem applied to the concrete
snapshot `[polNoMatch]` in context `ctx0`, the no-match hypothesis
discharged by evaluation. -/
theorem abac_default_deny_witness :
    enforceABAC cmp0 rx0 [] ctx0 = false ∧
      enforceABAC cmp0 rx0 [polNoMatch] ctx0 = false :=
  ⟨(abac_default_deny cmp0 rx0 ctx0 [polNoMatch] (by decide)).1,
   (abac_default_deny cmp0 rx0 ctx0 [polNoMatch] (by decide)).2.1⟩

/-! ## C10: relationships whose subject contains a colon are invisible -/

/-- Per-entry contribution to `getDirectRelationships`. -/
def directContribution (subject object : String) (kv : String × List Relationship) :
    List Relationship :=
  match goSplitColon kv.1 with
  | [a, b] =>
    if a == subject && !(strStarts b "reverse_") then
      kv.2.filter (fun rel => rel.object == object)
    else []
  | _ => []

/-- Per-entry contribution to `getRelationships`. -/
def listContribution (subject : String) (kv : String × List Relationship) :
    List Relationship :=
  if subject != "" then
    match goSplitColon kv.1 with
    | [a, b] => if a == subject && !(strStarts b "reverse_") then kv.2 else []
    | _ => []
  else
    match goSplitColon kv.1 with
    | [_, b] => if !(strStarts b "reverse_") then kv.2 else []
    | _ => []

theorem getDirectRelationships_eq_flatMap (store : RelStore) (subject object : String) :
    getDirectRelationships store subject object =
      store.flatMap (directContribution subject object) := by
  unfold getDirectRelationships directContribution
  rfl

theorem getRelationships_eq_flatMap (store : RelStore) (subject : String) :
    getRelationships store subject = store.flatMap (listContribution subject) := by
  unfold getRelationships listContribution
  cases hs : subject != "" <;> simp [hs]

/-- A key that never contributes: one whose colon-split has not
exactly two parts, or has two parts with the second starting in
`reverse_`. -/
def skippedKey (key : String) : Prop :=
  (∀ a b, goSplitColon key ≠ [a, b]) ∨
    (∃ a b, goSplitColon key = [a, b] ∧ strStarts b "reverse_" = true)

theorem directContribution_skipped {key : String} (h : skippedKey key)
    (subject object : String) (rels : List Relationship) :
    directContribution subject object (key, rels) = [] := by
  unfold directContribution
  rcases h with h | ⟨a, b, hab, hrev⟩
  · cases hk : goSplitColon key with
    | nil => rfl
    | cons x t =>
      cases t with
      | nil => rfl
      | cons y t2 =>
        cases t2 with
        | nil => exact absurd hk (h x y)
        | cons z t3 => rfl
  · simp [hab, hrev]

theorem listContribution_skipped {key : String} (h : skippedKey key)
    (subject : String) (rels : List Relationship) :
    listContribution subject (key, rels) = [] := by
  unfold listContribution
  rcases h with h | ⟨a, b, hab, hrev⟩
  · cases hk : goSplitColon key with
    | nil => cases hs : subject != "" <;> simp [hs, hk]
    | cons x t =>
      cases t with
      | nil => cases hs : subject != "" <;> simp [hs, hk]
      | cons y t2 =>
        cases t2 with
        | nil => exact absurd hk (h x y)
        | cons z t3 => cases hs : subject != "" <;> simp [hs, hk]
  · cases hs : subject != "" <;> simp [hs, hab, hrev]

theorem flatMap_addToKey {β : Type} (f : String × List Relationship → List β)
    (store : RelStore) (key : String) (rel : Relationship)
    (h : ∀ rels, f (key, rels) = []) :
    (addToKey store key rel).flatMap f = store.flatMap f := by
  induction store with
  | nil => simp [addToKey, h]
  | cons kv rest ih =>
    cases kv with
    | mk k rels =>
      cases hk : k == key with
      | true =>
        have hkey : k = key := by simpa using hk
        subst hkey
        simp [addToKey, List.flatMap_cons, h]
      | false =>
        simp [addToKey, hk, List.flatMap_cons, ih]

theorem skippedKey_colon_subject {s : String} (r : String) (hs : ':' ∈ s.data) :
    skippedKey (s ++ ":" ++ r) := by
  left
  intro a b hab
  have hlen : (goSplitColon (s ++ ":" ++ r)).length =
      (goSplitColon s).length + (goSplitColon r).length := by
    rw [goSplitColon_append]; simp
  have h2 : 2 ≤ (goSplitColon s).length := by
    have := splitChars_length_ge_two hs
    simpa [goSplitColon] using this
  have h1 : 1 ≤ (goSplitColon r).length := by
    have := List.length_pos.mpr (splitChars_ne_nil ':' r.data)
    simpa [goSplitColon] using this
  rw [hab] at hlen
  simp at hlen
  omega

/-- The characters of the `reverse_` marker. -/
def revChars : List Char := "reverse_".data

theorem goSplitColon_length_eq (s : String) :
    (goSplitColon s).length = (splitChars ':' s.data).length := by
  unfold goSplitColon
  rw [List.length_map]

theorem skippedKey_reverse (o r : String) : skippedKey (o ++ ":reverse_" ++ r) := by
  have hdata : (o ++ ":reverse_" ++ r).data =
      o.data ++ ':' :: (revChars ++ r.data) := by
    rw [String.data_append, String.data_append]
    rw [show (":reverse_").data = ':' :: revChars from rfl]
    rw [List.append_assoc]
    rfl
  by_cases ho : ':' ∈ o.data
  · left
    intro a b hab
    have hlen : 2 + 1 ≤ (splitChars ':' (o ++ ":reverse_" ++ r).data).length := by
      rw [hdata, splitChars_append]
      have h2 := splitChars_length_ge_two ho
      have h1 := List.length_pos.mpr (splitChars_ne_nil ':' (revChars ++ r.data))
      simp only [List.length_append]
      omega
    have hgl := goSplitColon_length_eq (o ++ ":reverse_" ++ r)
    rw [hab] at hgl
    simp only [List.length_cons, List.length_nil] at hgl
    omega
  · by_cases hr : ':' ∈ revChars ++ r.data
    · left
      intro a b hab
      have hlen : 1 + 2 ≤ (splitChars ':' (o ++ ":reverse_" ++ r).data).length := by
        rw [hdata, splitChars_append]
        have h2 := splitChars_length_ge_two hr
        have h1 := List.length_pos.mpr (splitChars_ne_nil ':' o.data)
        simp only [List.length_append]
        omega
      have hgl := goSplitColon_length_eq (o ++ ":reverse_" ++ r)
      rw [hab] at hgl
      simp only [List.length_cons, List.length_nil] at hgl
      omega
    · right
      refine ⟨o, String.mk (revChars ++ r.data), ?_, ?_⟩
      · unfold goSplitColon
        rw [hdata, splitChars_append, splitChars_no_sep ho, splitChars_no_sep hr]
        simp [string_mk_data]
      · unfold strStarts
        exact listHasPre_append_right "reverse_".data r.data

/-- A store holding a single edge whose subject contains a colon,
built through the AddRelationship cache path. -/
def colonStore : RelStore := addRelCache [] "a:b" "owner" "doc"

/-- C10: an edge added with a subject containing ":" is stored under a
key whose colon-split has three or more parts, so the direct
relationship check and GetRelationships never see it — adding such an
edge changes neither function on any store — and concretely the store
`colonStore` holds an `owner` edge from "a:b" to "doc" that grants
read, yet Enforce("a:b", "doc", "read") denies and
GetRelationships("a:b") returns nothing. -/
theorem rebac_colon_subject_invisible (store : RelStore) (s r o : String)
    (hs : ':' ∈ s.data) :
    (∀ subj obj, getDirectRelationships (addRelCache store s r o) subj obj =
        getDirectRelationships store subj obj) ∧
      (∀ q, getRelationships (addRelCache store s r o) q = getRelationships store q) ∧
      (assocFind colonStore "a:b:owner" =
          [{ subject := "a:b", relationship := "owner", object := "doc" }] ∧
        hasPermissionThroughRelationship "owner" "read" = true ∧
        rebacEnforce 5 colonStore "a:b" "doc" "read" = some (false, "") ∧
        getRelationships colonStore "a:b" = []) := by
  refine ⟨?_, ?_, by decide, by decide, by decide, by decide⟩
  · intro subj obj
    rw [getDirectRelationships_eq_flatMap, getDirectRelationships_eq_flatMap]
    unfold addRelCache
    rw [flatMap_addToKey _ _ _ _
      (fun rels => directContribution_skipped (skippedKey_reverse o r) subj obj rels)]
    rw [flatMap_addToKey _ _ _ _
      (fun rels => directContribution_skipped (skippedKey_colon_subject r hs) subj obj rels)]
  · intro q
    rw [getRelationships_eq_flatMap, getRelationships_eq_flatMap]
    unfold addRelCache
    rw [flatMap_addToKey _ _ _ _
      (fun rels => listContribution_skipped (skippedKey_reverse o r) q rels)]
    rw [flatMap_addToKey _ _ _ _
      (fun rels => listContribution_skipped (skippedKey_colon_subject r hs) q rels)]

/-- C10 witness: the invisibility theorem applied to the concrete
store `[]` and the edge ("a:b", "owner", "doc"), the colon hypothesis
discharged by evaluation. -/
theorem rebac_colon_subject_invisible_witness :
    getDirectRelationships (addRelCache [] "a:b" "owner" "doc") "a:b" "doc" =
        getDirectRelationships [] "a:b" "doc" ∧
      getRelationships (addRelCache [] "a:b" "owner" "doc") "a:b" =
        getRelationships [] "a:b" :=
  ⟨(rebac_colon_subject_invisible [] "a:b" "owner" "doc" (by decide)).1 "a:b" "doc",
   (rebac_colon_subject_invisible [] "a:b" "owner" "doc" (by decide)).2.1 "a:b"⟩

/-! ## C3: the hierarchical recursion has no depth bound -/

/-- A store whose parent edges form a two-cycle: a is parent of b and
b is parent of a, built through the AddRelationship cache path. -/
def cycleStore : RelStore :=
  addRelCache (addRelCache [] "a" "parent" "b") "b" "parent" "a"

theorem cycleStore_eq :
    cycleStore =
      [("a:parent", [{ subject := "a", relationship := "parent", object := "b" }]),
       ("b:reverse_parent",
        [{ subject := "b", relationship := "reverse_parent", object := "a" }]),
       ("b:parent", [{ subject := "b", relationship := "parent", object := "a" }]),
       ("a:reverse_parent",
        [{ subject := "a", relationship := "reverse_parent", object := "b" }])] := by
  decide

/-- C3: on the cyclic parent graph `cycleStore`, the enforcement
recursion consumes every amount of fuel without returning — the
recursion through checkHierarchicalAccess is not bounded in depth, so
the Go code, which runs with no fuel, never terminates on
Enforce("alice", "a", "read"). -/
theorem rebac_parent_cycle_no_termination (fuel : Nat) :
    rebacEnforce fuel cycleStore "alice" "a" "read" = none ∧
      rebacEnforce fuel cycleStore "alice" "b" "read" = none := by
  induction fuel with
  | zero => exact ⟨rfl, rfl⟩
  | succ n ih =>
    obtain ⟨iha, ihb⟩ := ih
    rw [cycleStore_eq] at iha ihb
    constructor
    · simp [rebacEnforce, cycleStore_eq, mapActionToPermission, findDirectPath,
        getDirectRelationships, goSplitColon, splitChars, strStarts, listHasPre,
        checkGroupAccess, assocFind, checkHierarchicalAccess, hierEntries, hierRels,
        ihb]
    · simp [rebacEnforce, cycleStore_eq, mapActionToPermission, findDirectPath,
        getDirectRelationships, goSplitColon, splitChars, strStarts, listHasPre,
        checkGroupAccess, assocFind, checkHierarchicalAccess, hierEntries, hierRels,
        iha]

/-! ## C7: path endpoints -/

theorem findSome?_some {α β : Type} {f : α → Option β} {l : List α} {b : β}
    (h : l.findSome? f = some b) : ∃ a ∈ l, f a = some b := by
  induction l with
  | nil => simp [List.findSome?] at h
  | cons x rest ih =>
    rw [List.findSome?_cons] at h
    cases hx : f x with
    | some v =>
      rw [hx] at h
      simp only [Option.some.injEq] at h
      exact ⟨x, List.mem_cons_self x rest, by rw [hx, h]⟩
    | none =>
      rw [hx] at h
      obtain ⟨a, ha, hfa⟩ := ih h
      exact ⟨a, List.mem_cons_of_mem x ha, hfa⟩

theorem findDirectPath_shape {store : RelStore} {subject object permission path : String}
    (h : findDirectPath store subject object permission = some path) :
    ∃ r, path = subject ++ " -[" ++ r ++ "]-> " ++ object := by
  obtain ⟨rel, _, hrel⟩ := findSome?_some h
  by_cases hp : hasPermissionThroughRelationship rel.relationship permission = true
  · refine ⟨rel.relationship, ?_⟩
    simp only [hp, if_true] at hrel
    exact (Option.some.injEq _ _).mp hrel |>.symm
  · simp only [hp] at hrel
    simp at hrel

theorem checkGroupAccess_shape {store : RelStore} {subject object permission path : String}
    (h : checkGroupAccess store subject object permission = some path) :
    ∃ g r, path = subject ++ " -[member]-> " ++ g ++ " -[" ++ r ++ "]-> " ++ object := by
  obtain ⟨groupRel, _, hg⟩ := findSome?_some h
  obtain ⟨rel, _, hrel⟩ := findSome?_some hg
  by_cases hp : hasPermissionThroughRelationship rel.relationship permission = true
  · refine ⟨groupRel.object, rel.relationship, ?_⟩
    simp only [hp, if_true] at hrel
    exact (Option.some.injEq _ _).mp hrel |>.symm
  · simp only [hp] at hrel
    simp at hrel

theorem hierRels_shape {enf : String → Option (Bool × String)}
    {parentObject object path : String} {rels : List Relationship}
    (h : hierRels enf parentObject object rels = some (some path)) :
    ∃ parentPath, enf parentObject = some (true, parentPath) ∧
      path = parentPath ++ " -> " ++ parentObject ++ " -[parent]-> " ++ object := by
  induction rels with
  | nil => simp [hierRels] at h
  | cons rel rest ih =>
    by_cases hobj : rel.object == object
    · simp only [hierRels, hobj, if_true] at h
      split at h
      · simp at h
      · rename_i pp heq
        simp only [Option.some.injEq] at h
        exact ⟨pp, heq, h.symm⟩
      · exact ih h
    · simp only [hierRels, hobj] at h
      simp only [Bool.false_eq_true, if_false] at h
      exact ih h

theorem hierEntries_shape {enf : String → Option (Bool × String)}
    {object path : String} {store : RelStore}
    (h : hierEntries enf object store = some (some path)) :
    ∃ parentObject parentPath, enf parentObject = some (true, parentPath) ∧
      path = parentPath ++ " -> " ++ parentObject ++ " -[parent]-> " ++ object := by
  induction store with
  | nil => simp [hierEntries] at h
  | cons kv rest ih =>
    cases kv with
    | mk key rels =>
      rw [hierEntries] at h
      cases hk : goSplitColon key with
      | nil => rw [hk] at h; exact ih h
      | cons x t =>
        cases t with
        | nil => rw [hk] at h; exact ih h
        | cons y t2 =>
          cases t2 with
          | cons z t3 => rw [hk] at h; exact ih h
          | nil =>
            rw [hk] at h
            by_cases hy : y == "parent"
            · simp only [hy, if_true] at h
              cases hr : hierRels enf x object rels with
              | none => rw [hr] at h; simp at h
              | some v =>
                cases v with
                | some p2 =>
                  rw [hr] at h
                  simp only [Option.some.injEq] at h
                  obtain ⟨pp, he, hpath⟩ := hierRels_shape hr
                  exact ⟨x, pp, he, by rw [← h, hpath]⟩
                | none => rw [hr] at h; exact ih h
            · simp only [hy, Bool.false_eq_true, if_false] at h
              exact ih h

/-- The BFS queue invariant: every queued path starts at the search
subject and ends at the node of its queue item. -/
def QInv (subject : String) (queue : List QItem) : Prop :=
  ∀ it ∈ queue, strStarts it.path subject = true ∧ strEnds it.path it.node = true

theorem bfs_endpoints {store : RelStore} {target : String} {maxDepth : Nat}
    {subject : String} :
    ∀ (fuel : Nat) (visited : List String) (queue : List QItem),
      QInv subject queue →
      ∀ path, bfs store target maxDepth fuel visited queue = some (true, path) →
        strStarts path subject = true ∧ strEnds path target = true := by
  intro fuel
  induction fuel with
  | zero => intro visited queue _ path h; simp [bfs] at h
  | succ f ih =>
    intro visited queue hinv path h
    cases queue with
    | nil => simp [bfs] at h
    | cons current rest =>
      rw [bfs] at h
      by_cases hd : current.depth > maxDepth
      · rw [if_pos hd] at h
        exact ih visited rest (fun it hit => hinv it (List.mem_cons_of_mem _ hit)) path h
      · rw [if_neg hd] at h
        by_cases ht : current.node == target
        · rw [if_pos ht] at h
          simp only [Option.some.injEq, Prod.mk.injEq] at h
          obtain ⟨hs, he⟩ := hinv current (List.mem_cons_self current rest)
          have hteq : current.node = target := by simpa using ht
          rw [← h.2, ← hteq]
          exact ⟨hs, he⟩
        · rw [if_neg ht] at h
          by_cases hv : visited.contains current.node
          · rw [if_pos hv] at h
            exact ih visited rest (fun it hit => hinv it (List.mem_cons_of_mem _ hit)) path h
          · rw [if_neg hv] at h
            refine ih _ _ ?_ path h
            intro it hit
            rcases List.mem_append.mp hit with hold | hnew
            · exact hinv it (List.mem_cons_of_mem _ hold)
            · obtain ⟨rn, _, hrn⟩ := List.mem_filterMap.mp hnew
              by_cases hvz : (current.node :: visited).contains rn.2
              · rw [if_pos hvz] at hrn; simp at hrn
              · rw [if_neg hvz] at hrn
                simp only [Option.some.injEq] at hrn
                obtain ⟨hs, _⟩ := hinv current (List.mem_cons_self current rest)
                constructor
                · rw [← hrn]
                  exact strStarts_extend _ (strStarts_extend _ (strStarts_extend _
                    (strStarts_extend _ hs)))
                · rw [← hrn]
                  exact strEnds_append_left _ _

theorem checkSocialAccess_shape {store : RelStore} {subject object : String}
    {maxDepth : Int} {path : String}
    (h : checkSocialAccess store subject object maxDepth = some (some path)) :
    findRelationshipPath store subject object maxDepth = some (true, path) := by
  unfold checkSocialAccess at h
  split at h
  · simp at h
  · rename_i found p heq
    split at h
    · rename_i hc
      simp only [Option.some.injEq] at h
      have hfound : found = true := by
        cases found
        · simp at hc
        · rfl
      rw [heq, hfound, h]
    · simp at h

theorem findRelationshipPath_endpoints {store : RelStore} {subject target : String}
    {maxDepth : Int} {path : String}
    (h : findRelationshipPath store subject target maxDepth = some (true, path)) :
    strStarts path subject = true ∧ strEnds path target = true := by
  unfold findRelationshipPath at h
  refine bfs_endpoints _ _ _ ?_ path h
  intro it hit
  rcases List.mem_singleton.mp hit with rfl
  exact ⟨strStarts_self subject, strEnds_self subject⟩

/-- C7 (amended): whenever ReBAC Enforce returns true, the returned
path begins with the subject and ends with the object; this holds for
all four success branches.  (The segment structure is settled
separately: the hierarchical branch does not use ` -[rel]-> ` between
all consecutive nodes.) -/
theorem rebac_path_endpoints (fuel : Nat) :
    ∀ (store : RelStore) (subject object action path : String),
      rebacEnforce fuel store subject object action = some (true, path) →
      strStarts path subject = true ∧ strEnds path object = true := by
  induction fuel with
  | zero => intro store subject object action path h; simp [rebacEnforce] at h
  | succ n ih =>
    intro store subject object action path h
    rw [rebacEnforce] at h
    cases hdir : findDirectPath store subject object (mapActionToPermission action) with
    | some p =>
      rw [hdir] at h
      simp only [Option.some.injEq, Prod.mk.injEq] at h
      obtain ⟨r, hp⟩ := findDirectPath_shape hdir
      rw [← h.2, hp]
      constructor
      · exact strStarts_extend _ (strStarts_extend _ (strStarts_extend _
          (strStarts_append_right subject " -[")))
      · exact strEnds_append_left _ _
    | none =>
      rw [hdir] at h
      cases hgrp : checkGroupAccess store subject object (mapActionToPermission action) with
      | some p =>
        rw [hgrp] at h
        simp only [Option.some.injEq, Prod.mk.injEq] at h
        obtain ⟨g, r, hp⟩ := checkGroupAccess_shape hgrp
        rw [← h.2, hp]
        constructor
        · exact strStarts_extend _ (strStarts_extend _ (strStarts_extend _
            (strStarts_extend _ (strStarts_extend _
              (strStarts_append_right subject " -[member]-> ")))))
        · exact strEnds_append_left _ _
      | none =>
        rw [hgrp] at h
        cases hh : checkHierarchicalAccess
            (fun parentObject =>
              rebacEnforce n store subject parentObject (mapActionToPermission action))
            store object with
        | none => rw [hh] at h; simp at h
        | some v =>
          cases v with
          | some p =>
            rw [hh] at h
            simp only [Option.some.injEq, Prod.mk.injEq] at h
            obtain ⟨pO, pp, he, hp⟩ := hierEntries_shape hh
            have hrec := ih store subject pO (mapActionToPermission action) pp he
            rw [← h.2, hp]
            constructor
            · exact strStarts_extend _ (strStarts_extend _ (strStarts_extend _
                (strStarts_extend _ hrec.1)))
            · exact strEnds_append_left _ _
          | none =>
            rw [hh] at h
            by_cases hperm : (mapActionToPermission action == "read" ||
                mapActionToPermission action == "read_limited") = true
            · rw [if_pos hperm] at h
              cases hsoc : checkSocialAccess store subject object 3 with
              | none => rw [hsoc] at h; simp at h
              | some w =>
                cases w with
                | some p =>
                  rw [hsoc] at h
                  simp only [Option.some.injEq, Prod.mk.injEq] at h
                  have hfp := checkSocialAccess_shape hsoc
                  have := findRelationshipPath_endpoints hfp
                  rw [← h.2]
                  exact this
                | none => rw [hsoc] at h; simp at h
            · rw [if_neg hperm] at h
              simp at h

/-- A store where access to doc1 flows through a parent edge:
alice owns folder1 and folder1 is parent of doc1. -/
def hierStore : RelStore :=
  addRelCache (addRelCache [] "alice" "owner" "folder1") "folder1" "parent" "doc1"

/-- C7 witness: the endpoint theorem applied to the concrete group
scenario (alice reaches source_code through eng_team). -/
theorem rebac_path_endpoints_witness :
    strStarts "alice -[member]-> eng_team -[group_access]-> source_code" "alice" = true ∧
      strEnds "alice -[member]-> eng_team -[group_access]-> source_code" "source_code" = true :=
  rebac_path_endpoints 3
    (addRelCache (addRelCache [] "alice" "member" "eng_team")
      "eng_team" "group_access" "source_code")
    "alice" "source_code" "read"
    "alice -[member]-> eng_team -[group_access]-> source_code" (by decide)

/-- Render a chain `start -[r1]-> n1 -[r2]-> n2 ...`. -/
def renderChain (start : String) (segs : List (String × String)) : String :=
  segs.foldl (fun acc rn => acc ++ " -[" ++ rn.1 ++ "]-> " ++ rn.2) start

/-- The final node of a rendered chain. -/
def chainLast (start : String) (segs : List (String × String)) : String :=
  match segs.getLast? with
  | some rn => rn.2
  | none => start

/-- An identifier with no dash character (every identifier in the
counterexample graph is dash-free). -/
def dashFree (x : String) : Bool := x.data.all (fun c => c != '-')

/-- The claimed path format: the path consists of nodes separated by
` -[rel]-> ` arrow segments, beginning at the subject and ending at
the object, with dash-free relationship names and nodes. -/
def IsArrowChain (s o p : String) : Prop :=
  ∃ segs : List (String × String), p = renderChain s segs ∧ chainLast s segs = o ∧
    ∀ rn ∈ segs, dashFree rn.1 = true ∧ dashFree rn.2 = true

theorem count_dash_of_dashFree {x : String} (h : dashFree x = true) :
    x.data.count '-' = 0 := by
  rw [List.count_eq_zero]
  intro hm
  have := List.all_eq_true.mp h '-' hm
  simp at this

theorem count_dash_renderChain (segs : List (String × String)) :
    ∀ start : String,
      (∀ rn ∈ segs, dashFree rn.1 = true ∧ dashFree rn.2 = true) →
      (renderChain start segs).data.count '-' =
        start.data.count '-' + 2 * segs.length := by
  induction segs with
  | nil => intro start _; simp [renderChain]
  | cons rn rest ih =>
    intro start hplain
    have hstep : renderChain start (rn :: rest) =
        renderChain (start ++ " -[" ++ rn.1 ++ "]-> " ++ rn.2) rest := rfl
    rw [hstep, ih _ (fun q hq => hplain q (List.mem_cons_of_mem rn hq))]
    obtain ⟨h1, h2⟩ := hplain rn (List.mem_cons_self rn rest)
    simp only [String.data_append, List.count_append]
    rw [count_dash_of_dashFree h1, count_dash_of_dashFree h2]
    have ha : (" -[" : String).data.count '-' = 1 := by decide
    have hb : ("]-> " : String).data.count '-' = 1 := by decide
    rw [ha, hb]
    simp only [List.length_cons]
    omega

/-- C7 counterexample: on `hierStore` the hierarchical branch returns
the path "alice -[owner]-> folder1 -> folder1 -[parent]-> doc1", which
is not a chain of nodes separated by ` -[rel]-> ` segments: its dash
count is odd (5), while every such chain over dash-free identifiers
contains exactly two dashes per segment. -/
theorem rebac_path_arrow_counterexample :
    rebacEnforce 3 hierStore "alice" "doc1" "read" =
        some (true, "alice -[owner]-> folder1 -> folder1 -[parent]-> doc1") ∧
      ¬ IsArrowChain "alice" "doc1"
          "alice -[owner]-> folder1 -> folder1 -[parent]-> doc1" := by
  constructor
  · decide
  · rintro ⟨segs, hrender, hlast, hplain⟩
    have hc := count_dash_renderChain segs "alice" hplain
    rw [← hrender] at hc
    have h5 : ("alice -[owner]-> folder1 -> folder1 -[parent]-> doc1" : String).data.count '-' = 5 := by
      decide
    have h0 : ("alice" : String).data.count '-' = 0 := by decide
    rw [h5, h0] at hc
    omega
